import Mathlib

/-!
Verification of the subtitle validation and correction tool
(`skills/subtitle-correction/scripts/subtitle_tool.py`).

The development shallowly embeds the pure core of the Python script:
the tokenizer and word-level diff built on `difflib.SequenceMatcher`,
the SRT container parser, the structural validator, the diff/report
assemblers and the heuristic analyzer.  Python strings are modelled as
`List Char` (named `Text` below), Python lists as Lean lists, and the
few stateful parts (the `Colors` class) as explicit state passing.
Loops whose termination measure is not structural are given an explicit
fuel argument chosen so that the fuel never runs out on the real
control flow (each such definition documents its measure).
-/

/-- Python strings are modelled as lists of characters. -/
abbrev Text := List Char

/-- A token of the word-level diff: an ASCII alphanumeric run or a
single non-ASCII / symbol / space character. -/
abbrev Token := List Char

/-- The set of characters stripped by Python `str.strip()` / matched by
`str.isspace()`: ASCII whitespace, the C1 separators, and the Unicode
space characters. -/
def pyIsSpaceB (c : Char) : Bool :=
  c = ' ' ∨ c = '\t' ∨ c = '\n' ∨ c = '\r' ∨ c = '\x0b' ∨ c = '\x0c' ∨
  c = '\x1c' ∨ c = '\x1d' ∨ c = '\x1e' ∨ c = '\x1f' ∨ c = '\x85' ∨
  c = '\xa0' ∨ c = ' ' ∨
  ((' ' : Char) ≤ c ∧ c ≤ ' ') ∨
  c = ' ' ∨ c = ' ' ∨ c = ' ' ∨ c = ' ' ∨ c = '　'

/-- Python `char.isascii() and char.isalnum()`: an ASCII letter or digit. -/
def isAsciiAlnumB (c : Char) : Bool :=
  (('0' : Char) ≤ c ∧ c ≤ '9') ∨ (('a' : Char) ≤ c ∧ c ≤ 'z') ∨
  (('A' : Char) ≤ c ∧ c ≤ 'Z')

/-- The loop body of `tokenize` inside `word_level_diff` (and its
identical copy inside `word_level_diff_html`), lines 66-82 of the
source: ASCII alphanumeric characters are accumulated into
`current_word`; any other character flushes the current word and is
itself emitted as a one-character token when it is non-whitespace
(`char.strip()` truthy) or when it is exactly the space character;
all other whitespace characters are emitted nowhere. -/
def tokenizeAux : List Char → List Char → List Token
  | [], cur => if cur = [] then [] else [cur]
  | c :: rest, cur =>
    if isAsciiAlnumB c then tokenizeAux rest (cur ++ [c])
    else
      (if cur = [] then [] else [cur]) ++
      (if ¬ pyIsSpaceB c then [[c]] else if c = ' ' then [[c]] else []) ++
      tokenizeAux rest []

/-- `tokenize(text)` from the source. -/
def tokenize (t : Text) : List Token := tokenizeAux t []

/-- A character survives tokenization iff it is an ASCII alphanumeric
character, a non-whitespace character, or the space character.
Equivalently, the only characters dropped are whitespace characters
other than `' '`. -/
def keepB (c : Char) : Bool := isAsciiAlnumB c ∨ ¬ pyIsSpaceB c ∨ c = ' '

theorem flatten_tokenizeAux (l : List Char) :
    ∀ cur : List Char, (tokenizeAux l cur).flatten = cur ++ l.filter keepB := by
  induction l with
  | nil =>
    intro cur
    by_cases h : cur = [] <;> simp [tokenizeAux, h]
  | cons c rest ih =>
    intro cur
    by_cases ha : isAsciiAlnumB c
    · have hk : keepB c = true := by simp [keepB, ha]
      simp [tokenizeAux, ha, ih, hk]
    · have hflush : ((if cur = [] then [] else [cur]) : List Token).flatten = cur := by
        by_cases h : cur = [] <;> simp [h]
      by_cases hs : pyIsSpaceB c
      · by_cases hsp : c = ' '
        · subst hsp
          have hk : keepB ' ' = true := by decide
          simp [tokenizeAux, ha, hs, ih, hk, hflush, List.flatten_append]
        · have hk : keepB c = false := by simp [keepB, ha, hs, hsp]
          simp [tokenizeAux, ha, hs, hsp, ih, hk, hflush, List.flatten_append]
      · have hk : keepB c = true := by simp [keepB, hs]
        simp [tokenizeAux, ha, hs, ih, hk, hflush, List.flatten_append]

theorem flatten_tokenize (t : Text) : (tokenize t).flatten = t.filter keepB := by
  simpa [tokenize] using flatten_tokenizeAux t []

/-- Claim C1 counterexample: for the text `"a\nb"` the concatenation of
the tokens of `tokenize` is `"ab"`, not the original text — the newline
character does not appear as a token and is lost. -/
theorem c1_counterexample :
    (tokenize ("a\nb".data)).flatten = "ab".data ∧ "ab".data ≠ "a\nb".data := by
  constructor
  · rfl
  · decide

/-- Claim C1 (amended): concatenating the tokens of `tokenize T`, in
order, yields `T` with every whitespace character other than the plain
space `' '` removed; in particular the concatenation equals `T` exactly
whenever every whitespace character of `T` is the space character. -/
theorem c1_tokenize_concat (t : Text) :
    (tokenize t).flatten = t.filter keepB ∧
    ((∀ c ∈ t, pyIsSpaceB c → c = ' ') → (tokenize t).flatten = t) := by
  refine ⟨flatten_tokenize t, fun h => ?_⟩
  rw [flatten_tokenize t, List.filter_eq_self]
  intro c hc
  by_cases hs : pyIsSpaceB c
  · simp [keepB, h c hc hs]
  · simp [keepB, hs]

theorem c1_tokenize_concat_witness :
    ((tokenize ("ab c框".data)).flatten = "ab c框".data.filter keepB ∧
      ((∀ c ∈ "ab c框".data, pyIsSpaceB c → c = ' ') →
        (tokenize ("ab c框".data)).flatten = "ab c框".data)) ∧
    (tokenize ("ab c框".data)).flatten = "ab c框".data :=
  ⟨c1_tokenize_concat ("ab c框".data),
   (c1_tokenize_concat ("ab c框".data)).2 (by decide)⟩

/-!
## difflib.SequenceMatcher

`word_level_diff` (source lines 84-105) delegates the alignment to
`difflib.SequenceMatcher(None, orig_tokens, corr_tokens).get_opcodes()`.
The matcher is embedded here for an arbitrary element type with
decidable equality (the script instantiates it at `Token`):
`b2j`, `find_longest_match`, `get_matching_blocks` and `get_opcodes`
follow CPython's `difflib` with `isjunk=None` and `autojunk=True`,
so `bjunk` is always empty (the junk extension loops of
`find_longest_match` never run and the non-junk guards are always
true) while `bpopular` elements are removed from `b2j` when
`len(b) >= 200`.
-/

section SequenceMatcher

variable {α : Type} [DecidableEq α] [Inhabited α]

/-- A matching block `(i, j, size)` of `get_matching_blocks`. -/
abbrev Block := Nat × Nat × Nat

/-- The running `(besti, bestj, bestsize)` of `find_longest_match`. -/
abbrev Best := Nat × Nat × Nat

/-- The opcode tags of `get_opcodes`. -/
inductive Tag where
  | equal | delete | insert | replace
deriving DecidableEq, Repr

/-- One opcode `(tag, a1, a2, b1, b2)` of `get_opcodes`. -/
structure Opcode where
  tag : Tag
  a1 : Nat
  a2 : Nat
  b1 : Nat
  b2 : Nat
deriving DecidableEq, Repr

/-- The ascending list of indices at which `x` occurs in `b`
(the lists stored in difflib's `b2j` dictionary by `__chain_b`). -/
def positions (b : List α) (x : α) : List Nat :=
  (List.range b.length).filter (fun j => b.getD j default = x)

/-- Autojunk (`__chain_b`): when `len(b) >= 200`, elements occurring
more than `len(b) // 100 + 1` times are popular and are deleted from
`b2j`. -/
def popularB (b : List α) (x : α) : Bool :=
  200 ≤ b.length ∧ b.length / 100 + 1 < (positions b x).length

/-- `b2j[x]` after `__chain_b` (with `isjunk=None`): the occurrence
indices of `x` in `b`, or nothing when `x` is popular. -/
def b2j (b : List α) (x : α) : List Nat :=
  if popularB b x then [] else positions b x

/-- The inner `for j in b2j.get(a[i], nothing)` loop of
`find_longest_match`, processing row `i`.  `m` is the previous row's
`j2len` (read-only during the row), `new` is `newj2len`, and entries
absent from a dictionary are the value `0`.  Python's `j2len.get(j-1, 0)`
at `j = 0` reads key `-1`, which is never present, hence the `j = 0`
guard; `i - k + 1` and `j - k + 1` are written `i + 1 - k` and
`j + 1 - k` (equal over the integers, and the invariants below show
`k ≤ i + 1` and `k ≤ j + 1` on every path taken). -/
def innerLoop (i blo bhi : Nat) (m : Nat → Nat) :
    List Nat → (Nat → Nat) → Best → ((Nat → Nat) × Best)
  | [], new, best => (new, best)
  | j :: js, new, best =>
    if j < blo then innerLoop i blo bhi m js new best
    else if bhi ≤ j then (new, best)
    else
      let k := (if j = 0 then 0 else m (j - 1)) + 1
      let new2 : Nat → Nat := fun j2 => if j2 = j then k else new j2
      let best2 : Best := if best.2.2 < k then (i + 1 - k, j + 1 - k, k) else best
      innerLoop i blo bhi m js new2 best2

/-- The outer `for i in range(alo, ahi)` loop of `find_longest_match`:
each row starts from a fresh `newj2len` and the row result becomes the
next row's `j2len`. -/
def flmRows (a b : List α) (blo bhi : Nat) :
    List Nat → (Nat → Nat) → Best → Best
  | [], _, best => best
  | i :: is, m, best =>
    let r := innerLoop i blo bhi m (b2j b (a.getD i default)) (fun _ => 0) best
    flmRows a b blo bhi is r.1 r.2

/-- The first `while` extension loop of `find_longest_match`
(`bjunk` is empty, so `not isbjunk(b[bestj-1])` always holds).
The fuel is `besti - alo`: it decreases in lockstep with `besti`, and
when it reaches `0` the guard `besti > alo` is false anyway, so the
function agrees with the unbounded loop. -/
def extendLow (a b : List α) (alo blo : Nat) : Nat → Best → Best
  | 0, best => best
  | f + 1, (bi, bj, bs) =>
    if alo < bi ∧ blo < bj ∧ a.getD (bi - 1) default = b.getD (bj - 1) default
    then extendLow a b alo blo f (bi - 1, bj - 1, bs + 1)
    else (bi, bj, bs)

/-- The second `while` extension loop of `find_longest_match`.  The
fuel is `ahi - (besti + bestsize)`; when it reaches `0` the guard
`besti + bestsize < ahi` is false anyway. -/
def extendHigh (a b : List α) (ahi bhi : Nat) : Nat → Best → Best
  | 0, best => best
  | f + 1, (bi, bj, bs) =>
    if bi + bs < ahi ∧ bj + bs < bhi ∧ a.getD (bi + bs) default = b.getD (bj + bs) default
    then extendHigh a b ahi bhi f (bi, bj, bs + 1)
    else (bi, bj, bs)

/-- `find_longest_match(alo, ahi, blo, bhi)`.  The two junk extension
loops are omitted: their guards require `isbjunk(...)` to be true and
`bjunk` is empty with `isjunk=None`, so they never execute. -/
def findLongestMatch (a b : List α) (alo ahi blo bhi : Nat) : Best :=
  let best0 := flmRows a b blo bhi (List.range' alo (ahi - alo)) (fun _ => 0) (alo, blo, 0)
  let best1 := extendLow a b alo blo (best0.1 - alo) best0
  extendHigh a b ahi bhi (ahi - (best1.1 + best1.2.2)) best1

/-- The block-collecting loop of `get_matching_blocks`.  CPython keeps
a LIFO queue of unexplored `(alo, ahi, blo, bhi)` ranges and sorts the
collected blocks at the end; since the blocks found in a sub-range are
determined by that sub-range alone and lie strictly between the blocks
of the ranges to its left and right, processing the two sub-ranges
recursively in order yields exactly the sorted list.  The fuel is
`(ahi - alo) + (bhi - blo)`: both recursive calls are on strictly
smaller range sums, and at fuel `0` both ranges are empty so
`find_longest_match` returns size `0` and the loop stops anyway. -/
def matchingBlocksAux (a b : List α) : Nat → Nat → Nat → Nat → Nat → List Block
  | 0, _, _, _, _ => []
  | f + 1, alo, ahi, blo, bhi =>
    let r := findLongestMatch a b alo ahi blo bhi
    if r.2.2 = 0 then []
    else
      (if alo < r.1 ∧ blo < r.2.1 then matchingBlocksAux a b f alo r.1 blo r.2.1 else []) ++
      [r] ++
      (if r.1 + r.2.2 < ahi ∧ r.2.1 + r.2.2 < bhi then
        matchingBlocksAux a b f (r.1 + r.2.2) ahi (r.2.1 + r.2.2) bhi else [])

/-- The adjacent-block merging pass at the end of `get_matching_blocks`
(`i1, j1, k1` start at `(0, 0, 0)`). -/
def mergeBlocks : List Block → Block → List Block
  | [], (i1, j1, k1) => if k1 ≠ 0 then [(i1, j1, k1)] else []
  | (i2, j2, k2) :: rest, (i1, j1, k1) =>
    if i1 + k1 = i2 ∧ j1 + k1 = j2 then mergeBlocks rest (i1, j1, k1 + k2)
    else (if k1 ≠ 0 then [(i1, j1, k1)] else []) ++ mergeBlocks rest (i2, j2, k2)

/-- `get_matching_blocks()`: collect, merge adjacent blocks, and append
the sentinel `(la, lb, 0)`. -/
def getMatchingBlocks (a b : List α) : List Block :=
  mergeBlocks (matchingBlocksAux a b (a.length + b.length) 0 a.length 0 b.length) (0, 0, 0)
    ++ [(a.length, b.length, 0)]

/-- The opcode-emitting loop of `get_opcodes()`: `(i, j)` is the
position reached so far; each block first emits a `replace` / `delete`
/ `insert` opcode for the gap before it (if any) and then an `equal`
opcode for itself (if its size is nonzero). -/
def opcodesLoop : Nat → Nat → List Block → List Opcode
  | _, _, [] => []
  | i, j, (ai, bj, size) :: rest =>
    (if i < ai ∧ j < bj then [⟨Tag.replace, i, ai, j, bj⟩]
     else if i < ai then [⟨Tag.delete, i, ai, j, bj⟩]
     else if j < bj then [⟨Tag.insert, i, ai, j, bj⟩]
     else []) ++
    (if size ≠ 0 then [⟨Tag.equal, ai, ai + size, bj, bj + size⟩] else []) ++
    opcodesLoop (ai + size) (bj + size) rest

/-- `SequenceMatcher(None, a, b).get_opcodes()`. -/
def getOpcodes (a b : List α) : List Opcode :=
  opcodesLoop 0 0 (getMatchingBlocks a b)

end SequenceMatcher

/-- Sanity check: two equal two-token sequences align as one equal
opcode. -/
theorem getOpcodes_pair_sanity :
    getOpcodes ["a", "b"] ["a", "b"] = [⟨Tag.equal, 0, 2, 0, 2⟩] := by decide

/-- The spec's concrete scenario: `"...Lantern框架"` against
`"...LangChain框架"` aligns as Equal / Replace / Equal around the one
changed ASCII word. -/
theorem lantern_langchain_scenario :
    getOpcodes (tokenize "这款工具用了Lantern框架".data) (tokenize "这款工具用了LangChain框架".data) =
      [⟨Tag.equal, 0, 6, 0, 6⟩, ⟨Tag.replace, 6, 7, 6, 7⟩, ⟨Tag.equal, 7, 9, 7, 9⟩] := by
  decide

/-- A text whose newline is dropped by tokenization aligns against its
newline-free form as a single replace. -/
theorem newline_tokens_scenario :
    getOpcodes (tokenize "a\nb".data) (tokenize "ab".data) =
    [⟨Tag.replace, 0, 2, 0, 1⟩] := by decide

/-!
## Bounds invariants of `find_longest_match` and the block chain

These establish claim C2: the opcodes partition both token sequences.
-/

section SequenceMatcherBounds

variable {α : Type} [DecidableEq α] [Inhabited α]

/-- Invariant of a `j2len` dictionary: a (necessarily nonzero) entry at
key `j` describes a match run ending at column `j`, of length at most
`j + 1 - blo` and at most `bound - alo` (rows processed so far). -/
def RowInv (alo blo bound : Nat) (m : Nat → Nat) : Prop :=
  ∀ j, m j ≠ 0 → blo ≤ j ∧ m j + blo ≤ j + 1 ∧ m j + alo ≤ bound

/-- Bounds invariant of the running `(besti, bestj, bestsize)`. -/
def BestInv (alo ahi blo bhi : Nat) (best : Best) : Prop :=
  alo ≤ best.1 ∧ blo ≤ best.2.1 ∧ best.1 + best.2.2 ≤ ahi ∧ best.2.1 + best.2.2 ≤ bhi

theorem innerStep_bounds {alo blo i j : Nat} (m : Nat → Nat)
    (hm : RowInv alo blo i m) (hi : alo ≤ i) (hbloj : blo ≤ j) :
    ((if j = 0 then 0 else m (j - 1)) + 1) + blo ≤ j + 1 ∧
    ((if j = 0 then 0 else m (j - 1)) + 1) + alo ≤ i + 1 := by
  by_cases h0 : j = 0
  · subst h0
    have hz : (if (0 : Nat) = 0 then (0 : Nat) else m (0 - 1)) = 0 := by simp
    rw [hz]
    omega
  · simp only [if_neg h0]
    by_cases hmz : m (j - 1) = 0
    · rw [hmz]; omega
    · have := hm (j - 1) hmz
      omega

theorem innerLoop_inv {alo ahi blo bhi i : Nat} (m : Nat → Nat)
    (hm : RowInv alo blo i m) (hi : alo ≤ i) (hia : i < ahi) :
    ∀ (js : List Nat) (new : Nat → Nat) (best : Best),
      RowInv alo blo (i + 1) new → BestInv alo ahi blo bhi best →
      RowInv alo blo (i + 1) (innerLoop i blo bhi m js new best).1 ∧
      BestInv alo ahi blo bhi (innerLoop i blo bhi m js new best).2 := by
  intro js
  induction js with
  | nil => intro new best h1 h2; exact ⟨h1, h2⟩
  | cons j js ih =>
    intro new best h1 h2
    by_cases hj1 : j < blo
    · simp only [innerLoop, if_pos hj1]
      exact ih new best h1 h2
    · by_cases hj2 : bhi ≤ j
      · simp only [innerLoop, if_neg hj1, if_pos hj2]
        exact ⟨h1, h2⟩
      · have hbloj : blo ≤ j := Nat.le_of_not_lt hj1
        have hjbhi : j < bhi := Nat.lt_of_not_le hj2
        obtain ⟨hK1, hK2⟩ := innerStep_bounds m hm hi hbloj
        simp only [innerLoop, if_neg hj1, if_neg hj2]
        apply ih
        · intro j2 hj2ne
          by_cases hjj : j2 = j
          · subst hjj
            simp only [if_pos rfl]
            exact ⟨hbloj, hK1, hK2⟩
          · simp only [if_neg hjj] at hj2ne ⊢
            exact h1 j2 hj2ne
        · obtain ⟨bi, bj, bs⟩ := best
          obtain ⟨g1, g2, g3, g4⟩ := h2
          by_cases hup : bs < (if j = 0 then 0 else m (j - 1)) + 1
          · simp only at hup
            simp only [if_pos hup]
            refine ⟨?_, ?_, ?_, ?_⟩ <;> simp only [BestInv] <;> omega
          · simp only at hup
            simp only [if_neg hup]
            exact ⟨g1, g2, g3, g4⟩

theorem flmRows_inv {alo ahi blo bhi : Nat} (a b : List α) :
    ∀ (cnt i0 : Nat) (m : Nat → Nat) (best : Best),
      alo ≤ i0 → i0 + cnt ≤ ahi → RowInv alo blo i0 m →
      BestInv alo ahi blo bhi best →
      BestInv alo ahi blo bhi (flmRows a b blo bhi (List.range' i0 cnt) m best) := by
  intro cnt
  induction cnt with
  | zero =>
    intro i0 m best _ _ _ h4
    simpa [List.range', flmRows] using h4
  | succ cnt ih =>
    intro i0 m best h1 h2 h3 h4
    have hlt : i0 < ahi := by omega
    have hr := innerLoop_inv m h3 h1 hlt
      (b2j b (a.getD i0 default)) (fun _ => 0) best (by intro j h; simp at h) h4
    simp only [List.range', flmRows]
    exact ih (i0 + 1) _ _ (by omega) (by omega) hr.1 hr.2

theorem extendLow_inv (a b : List α) {alo ahi blo bhi : Nat} :
    ∀ (f : Nat) (best : Best), BestInv alo ahi blo bhi best →
      BestInv alo ahi blo bhi (extendLow a b alo blo f best) := by
  intro f
  induction f with
  | zero => intro best h; exact h
  | succ f ih =>
    intro best h
    obtain ⟨bi, bj, bs⟩ := best
    obtain ⟨g1, g2, g3, g4⟩ := h
    by_cases hc : alo < bi ∧ blo < bj ∧
        a.getD (bi - 1) default = b.getD (bj - 1) default
    · simp only [extendLow, if_pos hc]
      apply ih
      refine ⟨?_, ?_, ?_, ?_⟩ <;> simp only at g1 g2 g3 g4 ⊢ <;> omega
    · simp only [extendLow, if_neg hc]
      exact ⟨g1, g2, g3, g4⟩

theorem extendHigh_inv (a b : List α) {alo ahi blo bhi : Nat} :
    ∀ (f : Nat) (best : Best), BestInv alo ahi blo bhi best →
      BestInv alo ahi blo bhi (extendHigh a b ahi bhi f best) := by
  intro f
  induction f with
  | zero => intro best h; exact h
  | succ f ih =>
    intro best h
    obtain ⟨bi, bj, bs⟩ := best
    obtain ⟨g1, g2, g3, g4⟩ := h
    by_cases hc : bi + bs < ahi ∧ bj + bs < bhi ∧
        a.getD (bi + bs) default = b.getD (bj + bs) default
    · simp only [extendHigh, if_pos hc]
      apply ih
      refine ⟨?_, ?_, ?_, ?_⟩ <;> simp only at g1 g2 g3 g4 ⊢ <;> omega
    · simp only [extendHigh, if_neg hc]
      exact ⟨g1, g2, g3, g4⟩

theorem findLongestMatch_inv (a b : List α) (alo ahi blo bhi : Nat)
    (h1 : alo ≤ ahi) (h2 : blo ≤ bhi) :
    BestInv alo ahi blo bhi (findLongestMatch a b alo ahi blo bhi) := by
  unfold findLongestMatch
  apply extendHigh_inv
  apply extendLow_inv
  apply flmRows_inv a b (ahi - alo) alo _ _ (le_refl alo) (by omega)
  · intro j h; simp at h
  · refine ⟨le_refl alo, le_refl blo, ?_, ?_⟩ <;> simp <;> omega

end SequenceMatcherBounds

section BlockChain

variable {α : Type} [DecidableEq α] [Inhabited α]

/-- An ordered chain of matching blocks: starting from position
`(i, j)`, each block begins at or after the current position and the
final position stays within `(e1, e2)`. -/
inductive SBc : Nat → Nat → Nat → Nat → List Block → Prop where
  | nil : ∀ {i j i2 j2}, i ≤ i2 → j ≤ j2 → SBc i j i2 j2 []
  | cons : ∀ {i j bi bj k i2 j2 rest}, i ≤ bi → j ≤ bj →
      SBc (bi + k) (bj + k) i2 j2 rest → SBc i j i2 j2 ((bi, bj, k) :: rest)

theorem SBc.mono {m n e1 e2 : Nat} {l : List Block} (h : SBc m n e1 e2 l) :
    ∀ {i j : Nat}, i ≤ m → j ≤ n → SBc i j e1 e2 l := by
  cases h with
  | nil h1 h2 => intro i j hi hj; exact SBc.nil (hi.trans h1) (hj.trans h2)
  | cons h1 h2 h3 => intro i j hi hj; exact SBc.cons (hi.trans h1) (hj.trans h2) h3

theorem SBc.append {i j m n e1 e2 : Nat} {l1 l2 : List Block}
    (h1 : SBc i j m n l1) (h2 : SBc m n e1 e2 l2) : SBc i j e1 e2 (l1 ++ l2) := by
  induction l1 generalizing i j with
  | nil =>
    cases h1 with
    | nil ha hb => exact h2.mono ha hb
  | cons blk rest ih =>
    obtain ⟨bi, bj, k⟩ := blk
    cases h1 with
    | cons ha hb hc => exact SBc.cons ha hb (ih hc)

theorem matchingBlocksAux_SBc (a b : List α) :
    ∀ (f alo ahi blo bhi : Nat), alo ≤ ahi → blo ≤ bhi →
      SBc alo blo ahi bhi (matchingBlocksAux a b f alo ahi blo bhi) := by
  intro f
  induction f with
  | zero =>
    intro alo ahi blo bhi h1 h2
    exact SBc.nil h1 h2
  | succ f ih =>
    intro alo ahi blo bhi h1 h2
    rcases hfr : findLongestMatch a b alo ahi blo bhi with ⟨ri, rj, rk⟩
    have hbi := findLongestMatch_inv a b alo ahi blo bhi h1 h2
    rw [hfr] at hbi
    obtain ⟨hb1, hb2, hb3, hb4⟩ := hbi
    simp only [BestInv] at hb1 hb2 hb3 hb4
    simp only [matchingBlocksAux, hfr]
    by_cases hk : rk = 0
    · simp only [if_pos hk]
      exact SBc.nil h1 h2
    · simp only [if_neg hk]
      have hmid : SBc ri rj (ri + rk) (rj + rk) [(ri, rj, rk)] :=
        SBc.cons (le_refl ri) (le_refl rj) (SBc.nil (le_refl _) (le_refl _))
      have hleft : SBc alo blo ri rj
          (if alo < ri ∧ blo < rj then matchingBlocksAux a b f alo ri blo rj else []) := by
        by_cases hc : alo < ri ∧ blo < rj
        · simp only [if_pos hc]
          exact ih alo ri blo rj (le_of_lt hc.1) (le_of_lt hc.2)
        · simp only [if_neg hc]
          exact SBc.nil hb1 hb2
      have hright : SBc (ri + rk) (rj + rk) ahi bhi
          (if ri + rk < ahi ∧ rj + rk < bhi then
            matchingBlocksAux a b f (ri + rk) ahi (rj + rk) bhi else []) := by
        by_cases hc : ri + rk < ahi ∧ rj + rk < bhi
        · simp only [if_pos hc]
          exact ih (ri + rk) ahi (rj + rk) bhi (le_of_lt hc.1) (le_of_lt hc.2)
        · simp only [if_neg hc]
          exact SBc.nil hb3 hb4
      exact (hleft.append hmid).append hright

theorem mergeBlocks_SBc :
    ∀ (l : List Block) (i1 j1 k1 i0 j0 e1 e2 : Nat),
      SBc (i1 + k1) (j1 + k1) e1 e2 l → i0 ≤ i1 → j0 ≤ j1 →
      SBc i0 j0 e1 e2 (mergeBlocks l (i1, j1, k1)) := by
  intro l
  induction l with
  | nil =>
    intro i1 j1 k1 i0 j0 e1 e2 h hi hj
    cases h with
    | nil h1 h2 =>
      by_cases hk : k1 = 0
      · simp only [mergeBlocks, hk, ne_eq, not_true_eq_false, if_false]
        exact SBc.nil (by omega) (by omega)
      · simp only [mergeBlocks, hk, ne_eq, not_false_eq_true, if_true]
        exact SBc.cons hi hj (SBc.nil h1 h2)
  | cons blk rest ih =>
    obtain ⟨i2, j2, k2⟩ := blk
    intro i1 j1 k1 i0 j0 e1 e2 h hi hj
    cases h with
    | cons hle1 hle2 htail =>
      by_cases hm : i1 + k1 = i2 ∧ j1 + k1 = j2
      · simp only [mergeBlocks, if_pos hm]
        apply ih i1 j1 (k1 + k2) i0 j0 e1 e2 _ hi hj
        have e1eq : i1 + (k1 + k2) = i2 + k2 := by omega
        have e2eq : j1 + (k1 + k2) = j2 + k2 := by omega
        rw [e1eq, e2eq]
        exact htail
      · simp only [mergeBlocks, if_neg hm]
        have htailm : SBc (i1 + k1) (j1 + k1) e1 e2 (mergeBlocks rest (i2, j2, k2)) :=
          ih i2 j2 k2 (i1 + k1) (j1 + k1) e1 e2 htail hle1 hle2
        by_cases hk : k1 = 0
        · simp only [hk, ne_eq, not_true_eq_false, if_false, List.nil_append]
          exact htailm.mono (by omega) (by omega)
        · simp only [hk, ne_eq, not_false_eq_true, if_true, List.singleton_append]
          exact SBc.cons hi hj htailm

theorem getMatchingBlocks_SBc (a b : List α) :
    SBc 0 0 a.length b.length (getMatchingBlocks a b) := by
  unfold getMatchingBlocks
  apply SBc.append
  · exact mergeBlocks_SBc _ 0 0 0 0 0 _ _
      (matchingBlocksAux_SBc a b _ 0 a.length 0 b.length (Nat.zero_le _) (Nat.zero_le _))
      (le_refl 0) (le_refl 0)
  · exact SBc.cons (le_refl _) (le_refl _) (SBc.nil (by omega) (by omega))

/-- The position on the source side after processing every block (the
end of the last block, or the start if there is none). -/
def endPosA (i : Nat) (l : List Block) : Nat :=
  l.foldl (fun _ bl => bl.1 + bl.2.2) i

/-- The position on the target side after processing every block. -/
def endPosB (j : Nat) (l : List Block) : Nat :=
  l.foldl (fun _ bl => bl.2.1 + bl.2.2) j

theorem endPosA_cons (i bi bj k : Nat) (rest : List Block) :
    endPosA i ((bi, bj, k) :: rest) = endPosA (bi + k) rest := rfl

theorem endPosB_cons (j bi bj k : Nat) (rest : List Block) :
    endPosB j ((bi, bj, k) :: rest) = endPosB (bj + k) rest := rfl

theorem endPosA_le {i j e1 e2 : Nat} {l : List Block} (h : SBc i j e1 e2 l) :
    i ≤ endPosA i l := by
  induction l generalizing i j with
  | nil => simp [endPosA]
  | cons blk rest ih =>
    obtain ⟨bi, bj, k⟩ := blk
    cases h with
    | cons h1 h2 h3 =>
      rw [endPosA_cons]
      exact le_trans (by omega) (ih h3)

theorem endPosB_le {i j e1 e2 : Nat} {l : List Block} (h : SBc i j e1 e2 l) :
    j ≤ endPosB j l := by
  induction l generalizing i j with
  | nil => simp [endPosB]
  | cons blk rest ih =>
    obtain ⟨bi, bj, k⟩ := blk
    cases h with
    | cons h1 h2 h3 =>
      rw [endPosB_cons]
      exact le_trans (by omega) (ih h3)

theorem take_drop_concat {β : Type} (l : List β) (i m e : Nat)
    (h1 : i ≤ m) (h2 : m ≤ e) :
    (l.drop i).take (m - i) ++ (l.drop m).take (e - m) = (l.drop i).take (e - i) := by
  have hd : l.drop m = (l.drop i).drop (m - i) := by
    rw [List.drop_drop]
    congr 1
    omega
  have he : e - i = (m - i) + (e - m) := by omega
  rw [hd, he, List.take_add]

theorem opcodesLoop_src (a : List α) :
    ∀ (l : List Block) (i j e1 e2 : Nat), SBc i j e1 e2 l →
      ((opcodesLoop i j l).map
          (fun op => (a.drop op.a1).take (op.a2 - op.a1))).flatten
        = (a.drop i).take (endPosA i l - i) := by
  intro l
  induction l with
  | nil =>
    intro i j e1 e2 _
    simp [opcodesLoop, endPosA]
  | cons blk rest ih =>
    obtain ⟨bi, bj, k⟩ := blk
    intro i j e1 e2 h
    cases h with
    | cons h1 h2 h3 =>
      have hE : bi + k ≤ endPosA (bi + k) rest := endPosA_le h3
      rw [endPosA_cons]
      simp only [opcodesLoop, List.map_append, List.flatten_append, ih _ _ _ _ h3]
      have hgap : (((if i < bi ∧ j < bj then [(⟨Tag.replace, i, bi, j, bj⟩ : Opcode)]
            else if i < bi then [⟨Tag.delete, i, bi, j, bj⟩]
            else if j < bj then [⟨Tag.insert, i, bi, j, bj⟩]
            else []).map (fun op => (a.drop op.a1).take (op.a2 - op.a1)))).flatten
          = (a.drop i).take (bi - i) := by
        by_cases hc2 : i < bi
        · by_cases hc3 : j < bj
          · simp [hc2, hc3]
          · simp [hc2, hc3]
        · have hbii : bi = i := by omega
          by_cases hc3 : j < bj
          · simp [hc2, hc3, hbii]
          · simp [hc2, hc3, hbii]
      have heq : (((if k ≠ 0 then [(⟨Tag.equal, bi, bi + k, bj, bj + k⟩ : Opcode)]
            else []).map (fun op => (a.drop op.a1).take (op.a2 - op.a1)))).flatten
          = (a.drop bi).take (bi + k - bi) := by
        by_cases hk : k = 0
        · simp [hk]
        · simp [hk]
      rw [hgap, heq, List.append_assoc,
        take_drop_concat a bi (bi + k) (endPosA (bi + k) rest) (by omega) hE,
        take_drop_concat a i bi (endPosA (bi + k) rest) h1 (by omega)]

theorem opcodesLoop_tgt (b : List α) :
    ∀ (l : List Block) (i j e1 e2 : Nat), SBc i j e1 e2 l →
      ((opcodesLoop i j l).map
          (fun op => (b.drop op.b1).take (op.b2 - op.b1))).flatten
        = (b.drop j).take (endPosB j l - j) := by
  intro l
  induction l with
  | nil =>
    intro i j e1 e2 _
    simp [opcodesLoop, endPosB]
  | cons blk rest ih =>
    obtain ⟨bi, bj, k⟩ := blk
    intro i j e1 e2 h
    cases h with
    | cons h1 h2 h3 =>
      have hE : bj + k ≤ endPosB (bj + k) rest := endPosB_le h3
      rw [endPosB_cons]
      simp only [opcodesLoop, List.map_append, List.flatten_append, ih _ _ _ _ h3]
      have hgap : (((if i < bi ∧ j < bj then [(⟨Tag.replace, i, bi, j, bj⟩ : Opcode)]
            else if i < bi then [⟨Tag.delete, i, bi, j, bj⟩]
            else if j < bj then [⟨Tag.insert, i, bi, j, bj⟩]
            else []).map (fun op => (b.drop op.b1).take (op.b2 - op.b1)))).flatten
          = (b.drop j).take (bj - j) := by
        by_cases hc2 : i < bi
        · by_cases hc3 : j < bj
          · simp [hc2, hc3]
          · have hbjj : bj = j := by omega
            simp [hc2, hc3, hbjj]
        · by_cases hc3 : j < bj
          · simp [hc2, hc3]
          · have hbjj : bj = j := by omega
            simp [hc2, hc3, hbjj]
      have heq : (((if k ≠ 0 then [(⟨Tag.equal, bi, bi + k, bj, bj + k⟩ : Opcode)]
            else []).map (fun op => (b.drop op.b1).take (op.b2 - op.b1)))).flatten
          = (b.drop bj).take (bj + k - bj) := by
        by_cases hk : k = 0
        · simp [hk]
        · simp [hk]
      rw [hgap, heq, List.append_assoc,
        take_drop_concat b bj (bj + k) (endPosB (bj + k) rest) (by omega) hE,
        take_drop_concat b j bj (endPosB (bj + k) rest) h2 (by omega)]

theorem endPosA_getMatchingBlocks (a b : List α) :
    endPosA 0 (getMatchingBlocks a b) = a.length := by
  unfold getMatchingBlocks endPosA
  rw [List.foldl_append]
  rfl

theorem endPosB_getMatchingBlocks (a b : List α) :
    endPosB 0 (getMatchingBlocks a b) = b.length := by
  unfold getMatchingBlocks endPosB
  rw [List.foldl_append]
  rfl

/-- `get_opcodes` partitions the source sequence: concatenating the
source-side slices of all opcodes, in order, recovers the whole
source sequence. -/
theorem getOpcodes_src_concat (a b : List α) :
    ((getOpcodes a b).map (fun op => (a.drop op.a1).take (op.a2 - op.a1))).flatten = a := by
  unfold getOpcodes
  rw [opcodesLoop_src a _ 0 0 a.length b.length (getMatchingBlocks_SBc a b),
    endPosA_getMatchingBlocks]
  simp

/-- `get_opcodes` partitions the target sequence. -/
theorem getOpcodes_tgt_concat (a b : List α) :
    ((getOpcodes a b).map (fun op => (b.drop op.b1).take (op.b2 - op.b1))).flatten = b := by
  unfold getOpcodes
  rw [opcodesLoop_tgt b _ 0 0 a.length b.length (getMatchingBlocks_SBc a b),
    endPosB_getMatchingBlocks]
  simp

end BlockChain

theorem flatten_map_flatten (l : List (List (List Char))) :
    (l.map List.flatten).flatten = l.flatten.flatten := by
  induction l with
  | nil => simp
  | cons x xs ih => simp [ih]

/-- Claim C2 counterexample: for source text `"a\nb"` and target text
`"ab"`, concatenating the source-side text of all opcodes of the
word-level alignment yields `"ab"`, not the source text `"a\nb"` — the
newline was already lost by tokenization. -/
theorem c2_counterexample :
    ((getOpcodes (tokenize "a\nb".data) (tokenize "ab".data)).map
        (fun op => (((tokenize "a\nb".data).drop op.a1).take (op.a2 - op.a1)).flatten)).flatten
      = "ab".data ∧ "ab".data ≠ "a\nb".data := by
  constructor
  · decide
  · decide

/-- Claim C2 (amended): for every pair of input texts, the opcode
sequence of the alignment engine partitions both token sequences in
order with no gaps or overlaps — concatenating the source-side token
slices of all opcodes yields exactly `tokenize source` and the
target-side slices yield exactly `tokenize target`.  Consequently,
concatenating the source-side (resp. target-side) text of all opcodes
reconstructs the source (resp. target) text with its whitespace
characters other than `' '` removed (and hence the text itself
whenever it contains no such whitespace, by `c1_tokenize_concat`). -/
theorem c2_alignment_reconstruction (orig corr : Text) :
    (((getOpcodes (tokenize orig) (tokenize corr)).map
        (fun op => ((tokenize orig).drop op.a1).take (op.a2 - op.a1))).flatten
      = tokenize orig) ∧
    (((getOpcodes (tokenize orig) (tokenize corr)).map
        (fun op => ((tokenize corr).drop op.b1).take (op.b2 - op.b1))).flatten
      = tokenize corr) ∧
    (((getOpcodes (tokenize orig) (tokenize corr)).map
        (fun op => (((tokenize orig).drop op.a1).take (op.a2 - op.a1)).flatten)).flatten
      = orig.filter keepB) ∧
    (((getOpcodes (tokenize orig) (tokenize corr)).map
        (fun op => (((tokenize corr).drop op.b1).take (op.b2 - op.b1)).flatten)).flatten
      = corr.filter keepB) := by
  refine ⟨getOpcodes_src_concat _ _, getOpcodes_tgt_concat _ _, ?_, ?_⟩
  · have h1 : ((getOpcodes (tokenize orig) (tokenize corr)).map
        (fun op => (((tokenize orig).drop op.a1).take (op.a2 - op.a1)).flatten))
        = ((getOpcodes (tokenize orig) (tokenize corr)).map
            (fun op => ((tokenize orig).drop op.a1).take (op.a2 - op.a1))).map List.flatten := by
      rw [List.map_map]
      rfl
    rw [h1, flatten_map_flatten, getOpcodes_src_concat, flatten_tokenize]
  · have h1 : ((getOpcodes (tokenize orig) (tokenize corr)).map
        (fun op => (((tokenize corr).drop op.b1).take (op.b2 - op.b1)).flatten))
        = ((getOpcodes (tokenize orig) (tokenize corr)).map
            (fun op => ((tokenize corr).drop op.b1).take (op.b2 - op.b1))).map List.flatten := by
      rw [List.map_map]
      rfl
    rw [h1, flatten_map_flatten, getOpcodes_tgt_concat, flatten_tokenize]

/-!
## The self-alignment of `SequenceMatcher` (claim C6)

For `a = b = t` the `j2len` phase of `find_longest_match` can only ever
promote a best match lying on the diagonal: a chain entry at `(i, j)`
forces the matched positions of both sides to be non-popular, so the
diagonal entry at column `i` (processed no later than column `j` of the
same element list) is at least as long, and all shorter candidates are
dominated by previously processed diagonal entries.  The two extension
loops then stretch the diagonal best to the full range.
-/

section SelfAlignment

variable {α : Type} [DecidableEq α] [Inhabited α]

theorem mem_positions {b : List α} {x : α} {j : Nat} :
    j ∈ positions b x ↔ j < b.length ∧ b.getD j default = x := by
  simp [positions, List.mem_filter, List.mem_range]

theorem mem_b2j {b : List α} {x : α} {j : Nat} :
    j ∈ b2j b x ↔ popularB b x = false ∧ j < b.length ∧ b.getD j default = x := by
  unfold b2j
  by_cases h : popularB b x <;> simp [h, mem_positions]

theorem b2j_pairwise (b : List α) (x : α) : (b2j b x).Pairwise (· < ·) := by
  unfold b2j
  split
  · exact List.Pairwise.nil
  · exact (List.pairwise_lt_range _).filter _

/-- Position `j` of `t` survives into `b2j` (it is in range and its
element is not popular). -/
def npB (t : List α) (j : Nat) : Bool :=
  decide (j < t.length) && !(popularB t (t.getD j default))

/-- Length of the maximal run of surviving positions ending at `j`. -/
def Drun (t : List α) : Nat → Nat
  | 0 => if npB t 0 then 1 else 0
  | j + 1 => if npB t (j + 1) then Drun t j + 1 else 0

theorem Drun_zero_np {t : List α} (h : npB t 0 = true) : Drun t 0 = 1 := by
  simp [Drun, h]

theorem Drun_succ_np {t : List α} {j : Nat} (hj : j ≠ 0) (h : npB t j = true) :
    Drun t j = Drun t (j - 1) + 1 := by
  obtain ⟨j0, rfl⟩ := Nat.exists_eq_succ_of_ne_zero hj
  simp [Drun, h]

theorem Drun_not_np {t : List α} {j : Nat} (h : npB t j = false) : Drun t j = 0 := by
  cases j <;> simp [Drun, h]

theorem Drun_pos_np {t : List α} {j : Nat} (h : npB t j = true) : 1 ≤ Drun t j := by
  by_cases hj : j = 0
  · subst hj; rw [Drun_zero_np h]
  · rw [Drun_succ_np hj h]; omega

theorem innerLoop_diag (t : List α) (i : Nat) (m : Nat → Nat)
    (hm1 : ∀ j, m j ≠ 0 → m j ≤ Drun t j)
    (hm2 : ∀ j, m j ≠ 0 → m j + 1 ≤ Drun t i)
    (hm3 : (if i = 0 then 0 else m (i - 1)) + 1 = Drun t i) :
    ∀ (js : List Nat) (new : Nat → Nat) (d bs : Nat),
      js.Pairwise (· < ·) →
      (∀ j ∈ js, j < t.length ∧ npB t j = true) →
      (∀ j, new j ≠ 0 → new j ≤ Drun t j ∧ new j ≤ Drun t i) →
      ((i ∈ js ∧ (∀ j, j < i → Drun t j ≤ bs)) ∨
        (new i = Drun t i ∧ Drun t i ≤ bs)) →
      (innerLoop i 0 t.length m js new (d, d, bs)).2.1
          = (innerLoop i 0 t.length m js new (d, d, bs)).2.2.1 ∧
      bs ≤ (innerLoop i 0 t.length m js new (d, d, bs)).2.2.2 ∧
      (∀ j, (innerLoop i 0 t.length m js new (d, d, bs)).1 j ≠ 0 →
        (innerLoop i 0 t.length m js new (d, d, bs)).1 j ≤ Drun t j ∧
        (innerLoop i 0 t.length m js new (d, d, bs)).1 j ≤ Drun t i) ∧
      ((innerLoop i 0 t.length m js new (d, d, bs)).1 i = Drun t i ∧
        Drun t i ≤ (innerLoop i 0 t.length m js new (d, d, bs)).2.2.2) := by
  intro js
  induction js with
  | nil =>
    intro new d bs _ _ hnew hstate
    rcases hstate with ⟨hmem, _⟩ | hB
    · exact absurd hmem (List.not_mem_nil i)
    · exact ⟨rfl, le_refl bs, hnew, hB⟩
  | cons j js ih =>
    intro new d bs hpw hcol hnew hstate
    have hDpos : 1 ≤ Drun t i := by omega
    obtain ⟨hjn, hjnp⟩ := hcol j (List.mem_cons_self j js)
    have hg1 : ¬ j < 0 := Nat.not_lt_zero j
    have hg2 : ¬ t.length ≤ j := Nat.not_le.mpr hjn
    simp only [innerLoop, if_neg hg1, if_neg hg2]
    set K := (if j = 0 then 0 else m (j - 1)) + 1 with hKdef
    have hknp : K ≤ Drun t j := by
      by_cases hj0 : j = 0
      · subst hj0
        rw [Drun_zero_np hjnp]
        simp [hKdef]
      · rw [Drun_succ_np hj0 hjnp]
        rw [hKdef]
        simp only [if_neg hj0]
        by_cases hmz : m (j - 1) = 0
        · omega
        · have := hm1 (j - 1) hmz
          omega
    have hkDI : K ≤ Drun t i := by
      by_cases hj0 : j = 0
      · subst hj0
        simp [hKdef]
        omega
      · rw [hKdef]
        simp only [if_neg hj0]
        by_cases hmz : m (j - 1) = 0
        · omega
        · have := hm2 (j - 1) hmz
          omega
    have hnew2 : ∀ j2, (fun j2 => if j2 = j then K else new j2) j2 ≠ 0 →
        (fun j2 => if j2 = j then K else new j2) j2 ≤ Drun t j2 ∧
        (fun j2 => if j2 = j then K else new j2) j2 ≤ Drun t i := by
      intro j2 hne
      by_cases hjj : j2 = j
      · subst hjj
        simp only [if_pos rfl]
        exact ⟨hknp, hkDI⟩
      · simp only [if_neg hjj] at hne ⊢
        exact hnew j2 hne
    rcases hstate with ⟨hmem, hA⟩ | ⟨hBi, hBs⟩
    · rcases List.mem_cons.mp hmem with hij | hiTail
      · -- the head is the diagonal column: transition to processed state
        subst hij
        have hKD : K = Drun t i := by rw [hKdef]; exact hm3
        by_cases hup : bs < K
        · simp only [if_pos hup]
          have hres := ih (fun j2 => if j2 = i then K else new j2) (i + 1 - K) K
            hpw.of_cons (fun j hj => hcol j (List.mem_cons_of_mem i hj)) hnew2
            (Or.inr ⟨by simp [hKD], by rw [hKD]⟩)
          exact ⟨hres.1, by omega, hres.2.2.1, hres.2.2.2⟩
        · simp only [if_neg hup]
          exact ih (fun j2 => if j2 = i then K else new j2) d bs
            hpw.of_cons (fun j hj => hcol j (List.mem_cons_of_mem i hj)) hnew2
            (Or.inr ⟨by simp [hKD], by omega⟩)
      · -- the diagonal column is still ahead: the head column is left
        -- of the diagonal and cannot beat the recorded best
        have hji : j < i := (List.pairwise_cons.mp hpw).1 i hiTail
        have hnoup : ¬ bs < K := by
          have := hA j hji
          omega
        simp only [if_neg hnoup]
        apply ih (fun j2 => if j2 = j then K else new j2) d bs
          hpw.of_cons (fun j hj => hcol j (List.mem_cons_of_mem _ hj)) hnew2
        exact Or.inl ⟨hiTail, hA⟩
    · -- the diagonal column has been processed: no later column updates
      have hnoup : ¬ bs < K := by omega
      simp only [if_neg hnoup]
      apply ih (fun j2 => if j2 = j then K else new j2) d bs
        hpw.of_cons (fun j hj => hcol j (List.mem_cons_of_mem _ hj)) hnew2
      refine Or.inr ⟨?_, hBs⟩
      by_cases hij : i = j
      · subst hij
        simp only [if_pos rfl]
        rw [hKdef]
        exact hm3
      · simp only [if_neg hij]
        exact hBi

end SelfAlignment

section SelfAlignment2

variable {α : Type} [DecidableEq α] [Inhabited α]

/-- Invariant carried from row to row of the `j2len` phase when the two
sequences are the same list `t`: row entries are bounded by their
diagonal runs, the previous diagonal entry is exact, the best is on
the diagonal, and its size dominates every diagonal run seen so far. -/
def DiagInv (t : List α) (i : Nat) (m : Nat → Nat) (best : Best) : Prop :=
  (∀ j, m j ≠ 0 → m j ≤ Drun t j) ∧
  (∀ j, m j ≠ 0 → i ≠ 0 ∧ m j ≤ Drun t (i - 1)) ∧
  (i ≠ 0 → m (i - 1) = Drun t (i - 1)) ∧
  best.1 = best.2.1 ∧
  (∀ j, j < i → Drun t j ≤ best.2.2)

theorem flmRow_diag (t : List α) (i : Nat) (m : Nat → Nat) (best : Best)
    (hin : DiagInv t i m best) (hi : i < t.length) :
    DiagInv t (i + 1)
      (innerLoop i 0 t.length m (b2j t (t.getD i default)) (fun _ => 0) best).1
      (innerLoop i 0 t.length m (b2j t (t.getD i default)) (fun _ => 0) best).2 := by
  obtain ⟨h1, h2, h3, h4, h5⟩ := hin
  by_cases hpop : popularB t (t.getD i default)
  · -- popular element: the row has no columns at all
    have hb : b2j t (t.getD i default) = [] := by
      unfold b2j
      rw [if_pos hpop]
    have hD0 : Drun t i = 0 := by
      apply Drun_not_np
      unfold npB
      rw [hpop]
      simp
    rw [hb]
    refine ⟨?_, ?_, ?_, h4, ?_⟩
    · intro j hj; simp [innerLoop] at hj
    · intro j hj; simp [innerLoop] at hj
    · intro _
      simp only [innerLoop, Nat.add_sub_cancel]
      rw [hD0]
    · intro j hj
      simp only [innerLoop]
      rcases Nat.lt_succ_iff_lt_or_eq.mp hj with h | h
      · exact h5 j h
      · subst h; rw [hD0]; omega
  · have hpop2 : popularB t (t.getD i default) = false := by
      rwa [Bool.not_eq_true] at hpop
    have hnp : npB t i = true := by
      unfold npB
      rw [hpop2]
      simp [hi]
    have hDi : 1 ≤ Drun t i := Drun_pos_np hnp
    have hm2 : ∀ j, m j ≠ 0 → m j + 1 ≤ Drun t i := by
      intro j hj
      obtain ⟨hi0, hle⟩ := h2 j hj
      rw [Drun_succ_np hi0 hnp]
      omega
    have hm3 : (if i = 0 then 0 else m (i - 1)) + 1 = Drun t i := by
      by_cases hi0 : i = 0
      · subst hi0
        simp [Drun_zero_np hnp]
      · simp only [if_neg hi0]
        rw [h3 hi0, ← Drun_succ_np hi0 hnp]
    have hmem : i ∈ b2j t (t.getD i default) := by
      rw [mem_b2j]
      exact ⟨hpop2, hi, rfl⟩
    have hcol : ∀ j ∈ b2j t (t.getD i default), j < t.length ∧ npB t j = true := by
      intro j hj
      rw [mem_b2j] at hj
      refine ⟨hj.2.1, ?_⟩
      unfold npB
      rw [hj.2.2, hj.1]
      simp [hj.2.1]
    obtain ⟨bd, bj2, bsz⟩ := best
    simp only at h4
    subst h4
    have hres := innerLoop_diag t i m h1 hm2 hm3 (b2j t (t.getD i default))
      (fun _ => 0) bd bsz (b2j_pairwise t _) hcol
      (by intro j hj; simp at hj)
      (Or.inl ⟨hmem, fun j hj => h5 j hj⟩)
    refine ⟨?_, ?_, ?_, hres.1, ?_⟩
    · intro j hj
      exact (hres.2.2.1 j hj).1
    · intro j hj
      refine ⟨by omega, ?_⟩
      have := (hres.2.2.1 j hj).2
      simpa using this
    · intro _
      simpa using hres.2.2.2.1
    · intro j hj
      rcases Nat.lt_succ_iff_lt_or_eq.mp hj with h | h
      · exact le_trans (h5 j h) hres.2.1
      · subst h
        exact hres.2.2.2.2

theorem flmRows_diag (t : List α) :
    ∀ (cnt i0 : Nat) (m : Nat → Nat) (best : Best),
      i0 + cnt ≤ t.length → DiagInv t i0 m best →
      (flmRows t t 0 t.length (List.range' i0 cnt) m best).1
        = (flmRows t t 0 t.length (List.range' i0 cnt) m best).2.1 := by
  intro cnt
  induction cnt with
  | zero =>
    intro i0 m best _ hin
    simpa [List.range', flmRows] using hin.2.2.2.1
  | succ cnt ih =>
    intro i0 m best hcnt hin
    have hstep := flmRow_diag t i0 m best hin (by omega)
    simp only [List.range', flmRows]
    exact ih (i0 + 1) _ _ (by omega) hstep

theorem extendLow_self (t : List α) :
    ∀ (d bs : Nat), extendLow t t 0 0 d (d, d, bs) = (0, 0, bs + d) := by
  intro d
  induction d with
  | zero => intro bs; simp [extendLow]
  | succ d ih =>
    intro bs
    simp only [extendLow, Nat.add_sub_cancel]
    split
    · rw [ih (bs + 1)]
      have harith : bs + 1 + d = bs + (d + 1) := by omega
      rw [harith]
    · rename_i hcond
      exact absurd ⟨Nat.succ_pos d, Nat.succ_pos d, trivial⟩ hcond

theorem extendHigh_self (t : List α) :
    ∀ (f s : Nat), f = t.length - s → s ≤ t.length →
      extendHigh t t t.length t.length f (0, 0, s) = (0, 0, t.length) := by
  intro f
  induction f with
  | zero =>
    intro s h1 h2
    have hs : s = t.length := by omega
    rw [hs]
    rfl
  | succ f ih =>
    intro s h1 h2
    have hs : s < t.length := by omega
    simp only [extendHigh]
    split
    · exact ih (s + 1) (by omega) (by omega)
    · rename_i hcond
      simp at hcond
      omega

theorem findLongestMatch_self (t : List α) :
    findLongestMatch t t 0 t.length 0 t.length = (0, 0, t.length) := by
  unfold findLongestMatch
  have hdiag := flmRows_diag t (t.length - 0) 0 (fun _ => 0) (0, 0, 0)
    (by omega)
    (by
      refine ⟨?_, ?_, ?_, rfl, ?_⟩
      · intro j hj; simp at hj
      · intro j hj; simp at hj
      · intro h; exact absurd rfl h
      · intro j hj; omega)
  have hbnd := @flmRows_inv α _ _ 0 t.length 0 t.length
    t t (t.length - 0) 0 (fun _ => 0) (0, 0, 0) (le_refl 0) (by omega)
    (by intro j hj; simp at hj)
    (by refine ⟨le_refl 0, le_refl 0, ?_, ?_⟩ <;> simp)
  rcases hflm : flmRows t t 0 t.length (List.range' 0 (t.length - 0)) (fun _ => 0) (0, 0, 0)
    with ⟨bd, bj2, bsz⟩
  rw [hflm] at hdiag hbnd
  simp only at hdiag
  subst hdiag
  obtain ⟨hb1, hb2, hb3, hb4⟩ := hbnd
  simp only at hb3
  simp only [Nat.sub_zero]
  rw [extendLow_self t bd bsz]
  simp only [Nat.zero_add]
  exact extendHigh_self t _ (bsz + bd) rfl (by omega)

/-- `get_matching_blocks` on a pair of identical sequences: a single
maximal block (plus the sentinel). -/
theorem getOpcodes_self (t : List α) :
    getOpcodes t t = if t.length = 0 then []
      else [⟨Tag.equal, 0, t.length, 0, t.length⟩] := by
  by_cases hn : t.length = 0
  · have ht : t = [] := List.length_eq_zero.mp hn
    subst ht
    simp [getOpcodes, getMatchingBlocks, matchingBlocksAux, mergeBlocks, opcodesLoop]
  · have hk : t.length + t.length = (t.length + t.length - 1) + 1 := by omega
    rw [if_neg hn]
    unfold getOpcodes getMatchingBlocks
    rw [hk]
    simp only [matchingBlocksAux, findLongestMatch_self t]
    have hg1 : ¬ ((0 : Nat) < 0 ∧ (0 : Nat) < 0) := by omega
    have hg2 : ¬ ((0 : Nat) + t.length < t.length ∧ (0 : Nat) + t.length < t.length) := by
      omega
    simp only [if_neg hn, if_neg hg1, if_neg hg2, List.nil_append, List.append_nil]
    have hm : mergeBlocks [((0 : Nat), (0 : Nat), t.length)] (0, 0, 0)
        = [(0, 0, t.length)] := by
      simp [mergeBlocks, hn]
    rw [hm]
    simp [opcodesLoop, hn, Nat.pos_of_ne_zero hn]

end SelfAlignment2

/-!
## Colors and `word_level_diff`

The `Colors` class (source lines 29-44) holds ANSI escape codes in
mutable class attributes; `Colors.disable()` overwrites them all with
empty strings.  Because this is shared mutable state, `word_level_diff`
is modelled as a state transformer: it receives the current attribute
values and returns the (possibly disabled) values alongside its output.
-/

/-- The class attributes of `Colors`. -/
structure ColorsState where
  RED : Text
  GREEN : Text
  YELLOW : Text
  BLUE : Text
  CYAN : Text
  BOLD : Text
  DIM : Text
  STRIKETHROUGH : Text
  RESET : Text
deriving DecidableEq

/-- The initial values of the `Colors` attributes. -/
def initialColors : ColorsState :=
  ⟨"\x1b[91m".data, "\x1b[92m".data, "\x1b[93m".data, "\x1b[94m".data,
   "\x1b[96m".data, "\x1b[1m".data, "\x1b[2m".data, "\x1b[9m".data, "\x1b[0m".data⟩

/-- `Colors.disable()`: every attribute becomes the empty string. -/
def disabledColors : ColorsState := ⟨[], [], [], [], [], [], [], [], []⟩

/-- The rendering of one opcode by the loop of `word_level_diff`
(source lines 90-103): equal runs verbatim, deletions wrapped in
`[-...-]` with red strikethrough, insertions wrapped in braces-plus
with green, and replacements as a deletion followed by an insertion. -/
def renderOpcode (cs : ColorsState) (origTokens corrTokens : List Token)
    (op : Opcode) : Text :=
  match op.tag with
  | Tag.equal => ((origTokens.drop op.a1).take (op.a2 - op.a1)).flatten
  | Tag.delete =>
      cs.RED ++ cs.STRIKETHROUGH ++ "[-".data ++
        ((origTokens.drop op.a1).take (op.a2 - op.a1)).flatten ++ "-]".data ++ cs.RESET
  | Tag.insert =>
      cs.GREEN ++ "\x7b+".data ++
        ((corrTokens.drop op.b1).take (op.b2 - op.b1)).flatten ++ "+\x7d".data ++ cs.RESET
  | Tag.replace =>
      (cs.RED ++ cs.STRIKETHROUGH ++ "[-".data ++
        ((origTokens.drop op.a1).take (op.a2 - op.a1)).flatten ++ "-]".data ++ cs.RESET) ++
      (cs.GREEN ++ "\x7b+".data ++
        ((corrTokens.drop op.b1).take (op.b2 - op.b1)).flatten ++ "+\x7d".data ++ cs.RESET)

/-- `word_level_diff(original, corrected, use_color)` (source lines
47-105).  `use_color=False` first calls `Colors.disable()`, mutating
the class attributes for every later caller; the returned state is the
attribute values after the call. -/
def word_level_diff (cs : ColorsState) (original corrected : Text)
    (use_color : Bool) : ColorsState × Text :=
  let cs2 := if use_color then cs else disabledColors
  let origTokens := tokenize original
  let corrTokens := tokenize corrected
  (cs2, ((getOpcodes origTokens corrTokens).map
    (renderOpcode cs2 origTokens corrTokens)).flatten)

theorem word_level_diff_self (cs : ColorsState) (t : Text) (u : Bool) :
    (word_level_diff cs t t u).2 = (tokenize t).flatten := by
  unfold word_level_diff
  simp only
  rw [getOpcodes_self (tokenize t)]
  by_cases h : (tokenize t).length = 0
  · rw [if_pos h]
    have ht : tokenize t = [] := List.length_eq_zero.mp h
    rw [ht]
    rfl
  · rw [if_neg h]
    simp [renderOpcode]

/-- Claim C6 counterexample: aligning the empty token sequence with
itself yields the empty opcode list — not a single Equal op spanning
all of the (empty) sequence. -/
theorem c6_counterexample :
    getOpcodes ([] : List Token) [] = [] ∧
    getOpcodes ([] : List Token) [] ≠ [⟨Tag.equal, 0, 0, 0, 0⟩] := by
  constructor
  · rfl
  · decide

/-- Claim C6 (amended): for every nonempty token sequence `A`,
`align(A, A)` yields the single Equal opcode spanning all of `A`; for
the empty sequence it yields the empty opcode list.  In both cases the
rendered diff of a text against itself carries no deletion or
insertion markers: `word_level_diff(t, t)` returns exactly the
concatenation of the tokens of `t`. -/
theorem c6_align_self (A : List Token) :
    (getOpcodes A A = if A.length = 0 then []
      else [⟨Tag.equal, 0, A.length, 0, A.length⟩]) ∧
    (∀ (cs : ColorsState) (t : Text) (u : Bool),
      (word_level_diff cs t t u).2 = (tokenize t).flatten) :=
  ⟨getOpcodes_self A, fun cs t u => word_level_diff_self cs t u⟩

/-- Claim C10: `word_level_diff` output is not a function of its
arguments alone.  Calling it once with `use_color=False` leaves the
`Colors` attributes disabled, so a subsequent call with
`use_color=True` on the same inputs produces the uncolored marker text
(identical to the no-color output), different from what the same call
produces against the pristine attribute values. -/
theorem c10_word_level_diff_state :
    (word_level_diff initialColors "x".data "y".data false).1 = disabledColors ∧
    (word_level_diff (word_level_diff initialColors "x".data "y".data false).1
        "x".data "y".data true).2
      ≠ (word_level_diff initialColors "x".data "y".data true).2 ∧
    (word_level_diff (word_level_diff initialColors "x".data "y".data false).1
        "x".data "y".data true).2
      = (word_level_diff initialColors "x".data "y".data false).2 := by
  refine ⟨rfl, by decide, by decide⟩

/-!
## The container parser `parse_srt`

`parse_srt` (source lines 935-976) reads the file, splits the stripped
content on runs of two or more newlines, and accepts a block only when
its first line parses as an integer and its (stripped) second line
starts with the timing grammar.  File access and decoding are I/O and
stay outside the model; the parser proper is a total function of the
file's text.
-/

/-- `str.strip()`: remove leading and trailing whitespace. -/
def pyStrip (s : Text) : Text :=
  ((s.dropWhile pyIsSpaceB).reverse.dropWhile pyIsSpaceB).reverse

/-- `str.split('\n')`. -/
def splitLines : Text → List Text
  | [] => [[]]
  | c :: rest =>
    if c = '\n' then [] :: splitLines rest
    else
      match splitLines rest with
      | l :: ls => (c :: l) :: ls
      | [] => [[c]]

/-- `re.split(r'\n\n+', s)`: cut at every maximal run of two or more
newline characters.  Each step consumes at least one character, so the
wrapper's fuel `s.length + 1` never runs out and the fuel-exhausted
branch is unreachable. -/
def splitBlocksAux : Nat → Text → Text → List Text
  | 0, s, cur => [cur.reverse ++ s]
  | _ + 1, [], cur => [cur.reverse]
  | f + 1, c :: rest, cur =>
    if c = '\n' ∧ rest.head? = some '\n' then
      cur.reverse :: splitBlocksAux f (rest.dropWhile (fun x => x = '\n')) []
    else splitBlocksAux f rest (c :: cur)

def splitBlocks (s : Text) : List Text := splitBlocksAux (s.length + 1) s []

def isDigitCh (c : Char) : Bool := ('0' : Char) ≤ c ∧ c ≤ '9'

def digitVal (c : Char) : Nat := c.toNat - 48

/-- After the first digit of a Python integer literal: further digits,
with single underscores allowed between digit groups. -/
def pyDigitsTail : Text → Nat → Option Nat
  | [], acc => some acc
  | '_' :: c :: rest, acc =>
    if isDigitCh c then pyDigitsTail rest (acc * 10 + digitVal c) else none
  | c :: rest, acc =>
    if isDigitCh c then pyDigitsTail rest (acc * 10 + digitVal c) else none

/-- `int(s)` on an already-stripped string: optional sign followed by
ASCII digits (Unicode digit forms are not modelled). -/
def pyParseInt (s : Text) : Option Int :=
  match s with
  | '+' :: c :: rest =>
    if isDigitCh c then (pyDigitsTail rest (digitVal c)).map (fun n => (n : Int)) else none
  | '-' :: c :: rest =>
    if isDigitCh c then (pyDigitsTail rest (digitVal c)).map (fun n => -(n : Int)) else none
  | c :: rest =>
    if isDigitCh c then (pyDigitsTail rest (digitVal c)).map (fun n => (n : Int)) else none
  | [] => none

/-- One `\d{2}:\d{2}:\d{2},\d{3}` timestamp at the start of the input;
returns the twelve matched characters and the remainder. -/
def parseTimestamp : Text → Option (Text × Text)
  | c1 :: c2 :: ':' :: c3 :: c4 :: ':' :: c5 :: c6 :: ',' :: c7 :: c8 :: c9 :: rest =>
    if isDigitCh c1 ∧ isDigitCh c2 ∧ isDigitCh c3 ∧ isDigitCh c4 ∧
        isDigitCh c5 ∧ isDigitCh c6 ∧ isDigitCh c7 ∧ isDigitCh c8 ∧ isDigitCh c9 then
      some ([c1, c2, ':', c3, c4, ':', c5, c6, ',', c7, c8, c9], rest)
    else none
  | _ => none

/-- `re.match(r'(\d{2}:\d{2}:\d{2},\d{3})\s*-->\s*(\d{2}:\d{2}:\d{2},\d{3})', l)`:
an anchored prefix match returning the two captured timestamps and the
unmatched remainder.  Both `\s*` runs are necessarily maximal because
the characters that follow them in the pattern (`-` and a digit) are
not whitespace, so `dropWhile` is exact. -/
def parseTimingLine (l : Text) : Option (Text × Text × Text) :=
  match parseTimestamp l with
  | none => none
  | some (ts1, r1) =>
    match r1.dropWhile pyIsSpaceB with
    | '-' :: '-' :: '>' :: r3 =>
      match parseTimestamp (r3.dropWhile pyIsSpaceB) with
      | none => none
      | some (ts2, r5) => some (ts1, ts2, r5)
    | _ => none

/-- `SubtitleEntry` (source lines 925-932). -/
structure SubtitleEntry where
  index : Int
  start_time : Text
  end_time : Text
  text : Text
  raw_timestamp_line : Text
deriving DecidableEq

/-- One iteration of the block loop of `parse_srt` (lines 944-974):
`none` models the two `continue`s (fewer than two lines or failed
index parse) and the timing-line mismatch skip. -/
def parseBlock (block : Text) : Option SubtitleEntry :=
  let lines := splitLines (pyStrip block)
  if lines.length < 2 then none
  else
    match pyParseInt (pyStrip (lines.getD 0 [])) with
    | none => none
    | some idx =>
      let timestamp_line := pyStrip (lines.getD 1 [])
      match parseTimingLine timestamp_line with
      | none => none
      | some (ts1, ts2, _) =>
        some ⟨idx, ts1, ts2,
          if 2 < lines.length then List.intercalate ['\n'] (lines.drop 2) else [],
          timestamp_line⟩

/-- `parse_srt` over the file's text content. -/
def parse_srt (content : Text) : List SubtitleEntry :=
  (splitBlocks (pyStrip content)).filterMap parseBlock

/-- Modelled from the spec: the claim's reading of "the second line
matches the timing-line grammar `<timestamp> --> <timestamp>`" as a
whole-line match — nothing may follow the second timestamp. -/
def specTimingLineFullMatch (l : Text) : Bool :=
  match parseTimingLine l with
  | some (_, _, rest) => rest = []
  | none => false

/-- Modelled from the spec (amended): a block is accepted iff it has at
least two lines after stripping, its first line parses as an integer,
and its stripped second line begins with the timing grammar (a prefix
match — trailing content after the second timestamp is tolerated). -/
def specBlockAccepted (block : Text) : Bool :=
  let lines := splitLines (pyStrip block)
  decide (2 ≤ lines.length) &&
  (pyParseInt (pyStrip (lines.getD 0 []))).isSome &&
  (parseTimingLine (pyStrip (lines.getD 1 []))).isSome

theorem length_filterMap_eq_length_filter {β γ : Type} (f : β → Option γ) (l : List β) :
    (l.filterMap f).length = (l.filter (fun x => (f x).isSome)).length := by
  induction l with
  | nil => rfl
  | cons x xs ih =>
    by_cases h : (f x).isSome
    · obtain ⟨y, hy⟩ := Option.isSome_iff_exists.mp h
      simp [List.filterMap_cons, List.filter_cons, hy, h, ih]
    · rw [Option.not_isSome_iff_eq_none] at h
      simp [List.filterMap_cons, List.filter_cons, h, ih]

/-- Claim C8 counterexample: the block `"1\n00:00:01,000 -->
00:00:02,000xyz\nhi"` is accepted by the parser (one entry results)
although its second line does not match the timing-line grammar as a
whole — `re.match` only anchors at the start, so the trailing `xyz`
is tolerated. -/
theorem c8_counterexample :
    (parse_srt "1\n00:00:01,000 --> 00:00:02,000xyz\nhi".data).length = 1 ∧
    (splitLines "1\n00:00:01,000 --> 00:00:02,000xyz\nhi".data).getD 1 []
      = "00:00:01,000 --> 00:00:02,000xyz".data ∧
    specTimingLineFullMatch "00:00:01,000 --> 00:00:02,000xyz".data = false := by
  refine ⟨by decide, by decide, by decide⟩

/-- Claim C8 (amended): a block is accepted exactly when it has at
least two lines, its first line parses as an integer, and its stripped
second line begins with the timing grammar (prefix match; trailing
content is tolerated and retained); every other block is silently
skipped, one parsed entry arises per accepted block, and the parser is
a total function of the file text (only file access or decode errors,
outside this model, can propagate). -/
theorem c8_parser_tolerance :
    (∀ block : Text, (parseBlock block).isSome = specBlockAccepted block) ∧
    (∀ content : Text, (parse_srt content).length
      = ((splitBlocks (pyStrip content)).filter specBlockAccepted).length) := by
  have hblock : ∀ block : Text, (parseBlock block).isSome = specBlockAccepted block := by
    intro block
    unfold parseBlock specBlockAccepted
    by_cases hlen : (splitLines (pyStrip block)).length < 2
    · have h2 : decide (2 ≤ (splitLines (pyStrip block)).length) = false := by
        simp
        omega
      simp [hlen, h2]
    · simp only [if_neg hlen]
      have h2 : decide (2 ≤ (splitLines (pyStrip block)).length) = true := by
        simp
        omega
      rw [h2]
      cases hint : pyParseInt (pyStrip ((splitLines (pyStrip block)).getD 0 [])) with
      | none => simp
      | some idx =>
        cases htl : parseTimingLine (pyStrip ((splitLines (pyStrip block)).getD 1 [])) with
        | none => simp [htl]
        | some r =>
          obtain ⟨ts1, ts2, rest⟩ := r
          simp [htl]
  refine ⟨hblock, fun content => ?_⟩
  rw [parse_srt, length_filterMap_eq_length_filter]
  congr 1
  apply List.filter_congr
  intro block _
  exact hblock block

/-- Claim C7 counterexample: when the timing line carries leading or
trailing whitespace, `raw_timestamp_line` holds the `.strip()`ed line,
not the exact original line text (interior spacing is preserved). -/
theorem c7_counterexample :
    ((parse_srt "1\n  00:00:01,000 -->  00:00:02,000 \nhi".data).map
        (fun en => en.raw_timestamp_line))
      = ["00:00:01,000 -->  00:00:02,000".data] ∧
    (splitLines "1\n  00:00:01,000 -->  00:00:02,000 \nhi".data).getD 1 []
      = "  00:00:01,000 -->  00:00:02,000 ".data ∧
    "00:00:01,000 -->  00:00:02,000".data ≠ "  00:00:01,000 -->  00:00:02,000 ".data := by
  refine ⟨by decide, by decide, by decide⟩

/-- Claim C7 (amended): for every parsed entry, `raw_timestamp_line`
equals the second line of its source block with leading and trailing
whitespace stripped (interior spacing, including around the arrow, is
preserved exactly), and the derived `start`/`end` timestamps are the
two timestamps read off a prefix of that stored line. -/
theorem c7_raw_header (content : Text) (entry : SubtitleEntry)
    (h : entry ∈ parse_srt content) :
    ∃ block ∈ splitBlocks (pyStrip content),
      entry.raw_timestamp_line = pyStrip ((splitLines (pyStrip block)).getD 1 []) ∧
      ∃ rest, parseTimingLine entry.raw_timestamp_line
        = some (entry.start_time, entry.end_time, rest) := by
  rw [parse_srt, List.mem_filterMap] at h
  obtain ⟨block, hb, hpb⟩ := h
  refine ⟨block, hb, ?_⟩
  unfold parseBlock at hpb
  by_cases hlen : (splitLines (pyStrip block)).length < 2
  · simp [hlen] at hpb
  · simp only [if_neg hlen] at hpb
    cases hint : pyParseInt (pyStrip ((splitLines (pyStrip block)).getD 0 [])) with
    | none => rw [hint] at hpb; simp at hpb
    | some idx =>
      rw [hint] at hpb
      cases htl : parseTimingLine (pyStrip ((splitLines (pyStrip block)).getD 1 [])) with
      | none => rw [htl] at hpb; simp at hpb
      | some r =>
        obtain ⟨ts1, ts2, rest⟩ := r
        rw [htl] at hpb
        simp only [Option.some.injEq] at hpb
        subst hpb
        exact ⟨rfl, rest, htl⟩

theorem c7_raw_header_witness :
    ((⟨1, "00:00:01,000".data, "00:00:02,000".data, "ok".data,
        "00:00:01,000 --> 00:00:02,000".data⟩ : SubtitleEntry)
      ∈ parse_srt "1\n00:00:01,000 --> 00:00:02,000\nok".data) ∧
    (∃ block ∈ splitBlocks (pyStrip "1\n00:00:01,000 --> 00:00:02,000\nok".data),
      (⟨1, "00:00:01,000".data, "00:00:02,000".data, "ok".data,
        "00:00:01,000 --> 00:00:02,000".data⟩ : SubtitleEntry).raw_timestamp_line
        = pyStrip ((splitLines (pyStrip block)).getD 1 []) ∧
      ∃ rest, parseTimingLine (⟨1, "00:00:01,000".data, "00:00:02,000".data, "ok".data,
          "00:00:01,000 --> 00:00:02,000".data⟩ : SubtitleEntry).raw_timestamp_line
        = some ((⟨1, "00:00:01,000".data, "00:00:02,000".data, "ok".data,
            "00:00:01,000 --> 00:00:02,000".data⟩ : SubtitleEntry).start_time,
          (⟨1, "00:00:01,000".data, "00:00:02,000".data, "ok".data,
            "00:00:01,000 --> 00:00:02,000".data⟩ : SubtitleEntry).end_time, rest)) :=
  ⟨by decide, c7_raw_header _ _ (by decide)⟩

/-!
## The structural validator `validate_correction`
-/

def natText (n : Nat) : Text := (toString n).data

def intText (n : Int) : Text := (toString n).data

/-- The four independent per-pair checks of `validate_correction`
(source lines 997-1011): index, start time, end time, raw timing line
— one issue string appended per failing check. -/
def entryIssues (i : Nat) (orig corr : SubtitleEntry) : List Text :=
  (if orig.index ≠ corr.index then
    ["Entry ".data ++ natText (i + 1) ++ ": Index mismatch (orig=".data ++
      intText orig.index ++ ", corr=".data ++ intText corr.index ++ ")".data]
  else []) ++
  (if orig.start_time ≠ corr.start_time then
    ["Entry ".data ++ intText orig.index ++ ": Start time changed from '".data ++
      orig.start_time ++ "' to '".data ++ corr.start_time ++ "'".data]
  else []) ++
  (if orig.end_time ≠ corr.end_time then
    ["Entry ".data ++ intText orig.index ++ ": End time changed from '".data ++
      orig.end_time ++ "' to '".data ++ corr.end_time ++ "'".data]
  else []) ++
  (if orig.raw_timestamp_line ≠ corr.raw_timestamp_line then
    ["Entry ".data ++ intText orig.index ++ ": Timestamp line formatting changed".data]
  else [])

/-- The `for i, (orig, corr) in enumerate(zip(original, corrected))`
loop. -/
def pairIssues : Nat → List (SubtitleEntry × SubtitleEntry) → List Text
  | _, [] => []
  | i, (o, c) :: rest => entryIssues i o c ++ pairIssues (i + 1) rest

/-- The core of `validate_correction` (source lines 979-1014) after
the two `parse_srt` calls: an entry-count check that returns
immediately on mismatch, otherwise the per-pair lockstep checks;
`is_valid = len(issues) == 0`. -/
def validateEntries (original corrected : List SubtitleEntry) : Bool × List Text :=
  if original.length ≠ corrected.length then
    (false, ["Entry count mismatch: original=".data ++ natText original.length ++
      ", corrected=".data ++ natText corrected.length])
  else
    let issues := pairIssues 0 (original.zip corrected)
    (issues.length == 0, issues)

/-- `validate_correction` over the two file contents. -/
def validate_correction (originalContent correctedContent : Text) : Bool × List Text :=
  validateEntries (parse_srt originalContent) (parse_srt correctedContent)

/-- The number of failing checks for one pair of entries. -/
def failCount (o c : SubtitleEntry) : Nat :=
  (if o.index = c.index then 0 else 1) +
  (if o.start_time = c.start_time then 0 else 1) +
  (if o.end_time = c.end_time then 0 else 1) +
  (if o.raw_timestamp_line = c.raw_timestamp_line then 0 else 1)

theorem entryIssues_length (i : Nat) (o c : SubtitleEntry) :
    (entryIssues i o c).length = failCount o c := by
  unfold entryIssues failCount
  by_cases h1 : o.index = c.index <;>
    by_cases h2 : o.start_time = c.start_time <;>
    by_cases h3 : o.end_time = c.end_time <;>
    by_cases h4 : o.raw_timestamp_line = c.raw_timestamp_line <;>
    simp [h1, h2, h3, h4]

theorem pairIssues_length :
    ∀ (i : Nat) (l : List (SubtitleEntry × SubtitleEntry)),
      (pairIssues i l).length = (l.map (fun p => failCount p.1 p.2)).sum := by
  intro i l
  induction l generalizing i with
  | nil => rfl
  | cons p rest ih =>
    obtain ⟨o, c⟩ := p
    simp [pairIssues, entryIssues_length, ih (i + 1)]

theorem failCount_eq_zero (o c : SubtitleEntry) :
    failCount o c = 0 ↔
      o.index = c.index ∧ o.start_time = c.start_time ∧
      o.end_time = c.end_time ∧ o.raw_timestamp_line = c.raw_timestamp_line := by
  unfold failCount
  by_cases h1 : o.index = c.index <;>
    by_cases h2 : o.start_time = c.start_time <;>
    by_cases h3 : o.end_time = c.end_time <;>
    by_cases h4 : o.raw_timestamp_line = c.raw_timestamp_line <;>
    simp [h1, h2, h3, h4]

/-- Claim C4: on equal-length sequences the validator walks both lists
in lockstep by position; each pair contributes exactly one issue per
failing check of its four independent checks (so all failures are
reported), and the verdict is pass iff zero issues were produced. -/
theorem c4_validator_lockstep (original corrected : List SubtitleEntry)
    (h : original.length = corrected.length) :
    ((validateEntries original corrected).2.length
      = ((original.zip corrected).map (fun p => failCount p.1 p.2)).sum) ∧
    ((validateEntries original corrected).1 = true ↔
      (validateEntries original corrected).2 = []) ∧
    ((validateEntries original corrected).1 = true ↔
      ∀ p ∈ original.zip corrected,
        p.1.index = p.2.index ∧ p.1.start_time = p.2.start_time ∧
        p.1.end_time = p.2.end_time ∧
        p.1.raw_timestamp_line = p.2.raw_timestamp_line) := by
  have hne : ¬ original.length ≠ corrected.length := by omega
  unfold validateEntries
  simp only [if_neg hne]
  refine ⟨pairIssues_length 0 _, ?_, ?_⟩
  · constructor
    · intro hv
      simp only [beq_iff_eq] at hv
      exact List.length_eq_zero.mp hv
    · intro hv
      simp [hv]
  · simp only [beq_iff_eq]
    rw [pairIssues_length 0 _, List.sum_eq_zero_iff]
    constructor
    · intro hv p hp
      exact (failCount_eq_zero p.1 p.2).mp
        (hv _ (List.mem_map_of_mem (fun p => failCount p.1 p.2) hp))
    · intro hv x hx
      obtain ⟨p, hp, rfl⟩ := List.mem_map.mp hx
      exact (failCount_eq_zero p.1 p.2).mpr (hv p hp)

/-- Concrete entries used by the validator witnesses. -/
def entA : SubtitleEntry := ⟨1, "s".data, "t".data, "a".data, "r".data⟩

def entB : SubtitleEntry := ⟨2, "s".data, "u".data, "a".data, "r".data⟩

theorem c4_validator_lockstep_witness :
    ([entA].length = [entB].length) ∧
    (((validateEntries [entA] [entB]).2.length
      = (([entA].zip [entB]).map (fun p => failCount p.1 p.2)).sum) ∧
    ((validateEntries [entA] [entB]).1 = true ↔
      (validateEntries [entA] [entB]).2 = []) ∧
    ((validateEntries [entA] [entB]).1 = true ↔
      ∀ p ∈ [entA].zip [entB],
        p.1.index = p.2.index ∧ p.1.start_time = p.2.start_time ∧
        p.1.end_time = p.2.end_time ∧
        p.1.raw_timestamp_line = p.2.raw_timestamp_line)) :=
  ⟨by decide, c4_validator_lockstep [entA] [entB] (by decide)⟩

/-- Claim C5: on sequences of differing lengths the validator fails
with exactly one issue (the count mismatch) and performs no per-entry
comparison. -/
theorem c5_validator_short_circuit (original corrected : List SubtitleEntry)
    (h : original.length ≠ corrected.length) :
    (validateEntries original corrected).1 = false ∧
    (validateEntries original corrected).2.length = 1 := by
  unfold validateEntries
  rw [if_pos h]
  exact ⟨rfl, rfl⟩

theorem c5_validator_short_circuit_witness :
    (([] : List SubtitleEntry).length ≠ [entA].length) ∧
    ((validateEntries [] [entA]).1 = false ∧
      (validateEntries [] [entA]).2.length = 1) :=
  ⟨by decide, c5_validator_short_circuit [] [entA] (by decide)⟩

/-!
## The diff assemblers: `show_diff` and `generate_html_diff`
-/

/-- One result dictionary of `show_diff`. -/
structure DiffRec where
  index : Int
  timestamp : Text
  original : Text
  corrected : Text
deriving DecidableEq

/-- `f"{e.start_time} --> {e.end_time}"`. -/
def timestampText (e : SubtitleEntry) : Text :=
  e.start_time ++ " --> ".data ++ e.end_time

/-- The core of `show_diff` (source lines 1017-1036) after parsing:
entries are paired BY POSITION via `zip(original, corrected)`
(truncating to the shorter sequence) and a record is emitted for each
pair whose text differs. -/
def show_diffEntries (original corrected : List SubtitleEntry) : List DiffRec :=
  (original.zip corrected).filterMap (fun p =>
    if p.1.text ≠ p.2.text then
      some ⟨p.1.index, timestampText p.1, p.1.text, p.2.text⟩
    else none)

/-- `show_diff` over the two file contents. -/
def show_diff (originalContent correctedContent : Text) : List DiffRec :=
  show_diffEntries (parse_srt originalContent) (parse_srt correctedContent)

/-- `html.escape(s)` (with its default `quote=True`). -/
def escapeChar (c : Char) : Text :=
  if c = '&' then "&amp;".data
  else if c = '<' then "&lt;".data
  else if c = '>' then "&gt;".data
  else if c = '"' then "&quot;".data
  else if c = Char.ofNat 39 then "&#x27;".data
  else [c]

def escapeHtml (t : Text) : Text := (t.map escapeChar).flatten

/-- One opcode rendered by `word_level_diff_html` (source lines
138-151). -/
def renderOpcodeHtml (origTokens corrTokens : List Token) (op : Opcode) : Text :=
  match op.tag with
  | Tag.equal => escapeHtml ((origTokens.drop op.a1).take (op.a2 - op.a1)).flatten
  | Tag.delete =>
      "<del>".data ++ escapeHtml ((origTokens.drop op.a1).take (op.a2 - op.a1)).flatten
        ++ "</del>".data
  | Tag.insert =>
      "<ins>".data ++ escapeHtml ((corrTokens.drop op.b1).take (op.b2 - op.b1)).flatten
        ++ "</ins>".data
  | Tag.replace =>
      ("<del>".data ++ escapeHtml ((origTokens.drop op.a1).take (op.a2 - op.a1)).flatten
        ++ "</del>".data) ++
      ("<ins>".data ++ escapeHtml ((corrTokens.drop op.b1).take (op.b2 - op.b1)).flatten
        ++ "</ins>".data)

/-- `word_level_diff_html(original, corrected)` (source lines 108-153). -/
def word_level_diff_html (original corrected : Text) : Text :=
  ((getOpcodes (tokenize original) (tokenize corrected)).map
    (renderOpcodeHtml (tokenize original) (tokenize corrected))).flatten

/-- One table row assembled by `generate_html_diff`. -/
structure HtmlRow where
  index : Int
  timestamp : Text
  original : Text
  corrected : Text
  diff : Text
  changed : Bool
deriving DecidableEq

/-- The dictionary `corr_map = {e.index: e for e in corrected}`: a
lookup by index value in which a later entry with the same index
overwrites an earlier one. -/
def corrMapGet (corrected : List SubtitleEntry) (i : Int) : Option SubtitleEntry :=
  (corrected.filter (fun e => e.index = i)).getLast?

/-- The row-assembly loop of `generate_html_diff` (source lines
168-191): one row per ORIGINAL entry, matched against the corrected
sequence by index value; an original index missing from the corrected
side is rendered unchanged with an empty corrected cell.  The
surrounding HTML document text and the file write are presentation and
stay outside the model. -/
def generateHtmlRows (original corrected : List SubtitleEntry) : List HtmlRow :=
  original.map (fun orig =>
    match corrMapGet corrected orig.index with
    | some corr =>
      if orig.text ≠ corr.text then
        ⟨orig.index, timestampText orig, escapeHtml orig.text, escapeHtml corr.text,
          word_level_diff_html orig.text corr.text, true⟩
      else
        ⟨orig.index, timestampText orig, escapeHtml orig.text, escapeHtml corr.text,
          escapeHtml orig.text, false⟩
    | none =>
      ⟨orig.index, timestampText orig, escapeHtml orig.text, [],
        escapeHtml orig.text, false⟩)

/-- Concrete entries for the C3 counterexample. -/
def entC1 : SubtitleEntry := ⟨1, "s".data, "t".data, "a".data, "r".data⟩

def entC2 : SubtitleEntry := ⟨2, "s".data, "t".data, "b".data, "r".data⟩

/-- Claim C3 counterexample: `show_diff` pairs entries by position,
not by index — with original `[index 1 ↦ "a", index 2 ↦ "b"]` and
corrected `[index 2 ↦ "b"]` it reports the index-1 entry as changed
to `"b"` (the text of the index-2 entry) even though no corrected
entry carries index 1, and the second original entry is silently
dropped by `zip`; moreover `generate_html_diff` emits no row at all
for a corrected-only index instead of an unchanged-with-empty row. -/
theorem c3_counterexample :
    show_diffEntries [entC1, entC2] [entC2]
      = [⟨1, "s --> t".data, "a".data, "b".data⟩] ∧
    corrMapGet [entC2] 1 = none ∧
    generateHtmlRows [] [entC2] = [] := by
  refine ⟨by decide, by decide, by decide⟩

/-- Claim C3 (amended): only `generate_html_diff` matches entries by
index value: it emits exactly one row per original entry, matched
against the corrected sequence by index; an original index absent from
the corrected side is reported as unchanged with an empty corrected
cell rather than raising.  (Corrected-only indices produce no row, and
`show_diff` pairs by position, truncating to the shorter sequence —
see the counterexample.) -/
theorem c3_html_rows_by_index (original corrected : List SubtitleEntry)
    (orig : SubtitleEntry) (h : orig ∈ original) :
    (generateHtmlRows original corrected).length = original.length ∧
    ∃ row ∈ generateHtmlRows original corrected,
      row.index = orig.index ∧ row.original = escapeHtml orig.text ∧
      (corrMapGet corrected orig.index = none →
        row.changed = false ∧ row.corrected = []) ∧
      (∀ corr, corrMapGet corrected orig.index = some corr →
        row.corrected = escapeHtml corr.text ∧
        (row.changed = true ↔ orig.text ≠ corr.text)) := by
  refine ⟨List.length_map _ _, ?_⟩
  refine ⟨_, List.mem_map_of_mem _ h, ?_⟩
  cases hc : corrMapGet corrected orig.index with
  | none => simp [hc]
  | some corr =>
    by_cases ht : orig.text ≠ corr.text
    · simp [hc, ht]
    · have ht2 : orig.text = corr.text := not_ne_iff.mp ht
      simp [hc, ht2]

theorem c3_html_rows_by_index_witness :
    (entC1 ∈ [entC1]) ∧
    ((generateHtmlRows [entC1] [entC2]).length = ([entC1] : List SubtitleEntry).length ∧
    ∃ row ∈ generateHtmlRows [entC1] [entC2],
      row.index = entC1.index ∧ row.original = escapeHtml entC1.text ∧
      (corrMapGet [entC2] entC1.index = none →
        row.changed = false ∧ row.corrected = []) ∧
      (∀ corr, corrMapGet [entC2] entC1.index = some corr →
        row.corrected = escapeHtml corr.text ∧
        (row.changed = true ↔ entC1.text ≠ corr.text))) :=
  ⟨by decide, c3_html_rows_by_index [entC1] [entC2] entC1 (by decide)⟩

/-!
## The heuristic analyzer `analyze_file`

`ERROR_PATTERNS` (source lines 1040-1069) mixes literal substrings and
regular expressions.  The regex fragment actually used — literals,
character classes, `\s*`, and one trailing negative lookahead — is
embedded as a small matcher whose search semantics (a match starting
at some position, with all `\s*` lengths tried) coincides with
`re.search` on these patterns.
-/

/-- The regular-expression atoms needed by `ERROR_PATTERNS`. -/
inductive ReAtom where
  | lit : Char → ReAtom
  | cls : List Char → ReAtom
  | wsStar : ReAtom
  | notAhead : List Char → ReAtom
deriving DecidableEq

/-- Does `s` begin with the literal characters `p`? -/
def beginsWith : List Char → Text → Bool
  | [], _ => true
  | _ :: _, [] => false
  | p :: ps, c :: cs => c = p && beginsWith ps cs

/-- Anchored match of a pattern against a prefix of `s`, trying every
length for each `\s*`. -/
def reMatchAt : List ReAtom → Text → Bool
  | [], _ => true
  | ReAtom.lit ch :: rest, s =>
    match s with
    | [] => false
    | c :: cs => c = ch && reMatchAt rest cs
  | ReAtom.cls chars :: rest, s =>
    match s with
    | [] => false
    | c :: cs => chars.contains c && reMatchAt rest cs
  | ReAtom.wsStar :: rest, s =>
    (List.range (s.length + 1)).any (fun k =>
      (s.take k).all pyIsSpaceB && reMatchAt rest (s.drop k))
  | ReAtom.notAhead p :: rest, s => !(beginsWith p s) && reMatchAt rest s

/-- `re.search(pattern, s)`: the pattern matches at some start
position. -/
def reSearch (pat : List ReAtom) (s : Text) : Bool :=
  (List.range (s.length + 1)).any (fun i => reMatchAt pat (s.drop i))

/-- A string as a sequence of literal atoms. -/
def lits (s : String) : List ReAtom := s.data.map ReAtom.lit

/-- `ERROR_PATTERNS` in declaration order: the dictionary key (the
pattern's source text), its compiled form, the suggested correction,
and the description. -/
def ERROR_PATTERNS : List (Text × List ReAtom × Text × Text) := [
  ("绘画".data, lits "绘画", "会话".data, "session/conversation context".data),
  ("源数据".data, lits "源数据", "元数据".data, "metadata".data),
  ("本科".data, lits "本科", "本课".data, "this lesson".data),
  ("事例".data, lits "事例", "示例".data, "example".data),
  ("中间键".data, lits "中间键", "中间件".data, "middleware".data),
  ("详细".data, lits "详细", "消息".data, "message (context-dependent)".data),
  ("[Ll]uncheon".data, ReAtom.cls ['L', 'l'] :: lits "uncheon",
    "langchain".data, "LangChain package".data),
  ("蓝[犬卷]".data, [ReAtom.lit '蓝', ReAtom.cls ['犬', '卷']],
    "LangChain".data, "LangChain framework".data),
  ("[Ll]antern".data, ReAtom.cls ['L', 'l'] :: lits "antern",
    "LangChain".data, "LangChain framework".data),
  ("land\\s*GRAPH".data, lits "land" ++ [ReAtom.wsStar] ++ lits "GRAPH",
    "langgraph".data, "LangGraph package".data),
  ("LAN\\s*GRAPH".data, lits "LAN" ++ [ReAtom.wsStar] ++ lits "GRAPH",
    "langgraph".data, "LangGraph package".data),
  ("open\\s*EI".data, lits "open" ++ [ReAtom.wsStar] ++ lits "EI",
    "OpenAI".data, "OpenAI".data),
  ("open\\s*Email".data, lits "open" ++ [ReAtom.wsStar] ++ lits "Email",
    "OpenAI".data, "OpenAI".data),
  ("[Aa]\\s*memory\\s*[Ss]erver".data,
    ReAtom.cls ['A', 'a'] :: [ReAtom.wsStar] ++ lits "memory" ++ [ReAtom.wsStar] ++
      ReAtom.cls ['S', 's'] :: lits "erver",
    "MemorySaver".data, "Memory component".data),
  ("amneserver".data, lits "amneserver", "MemorySaver".data, "Memory component".data),
  ("check\\s*point(?!er)".data,
    lits "check" ++ [ReAtom.wsStar] ++ lits "point" ++ [ReAtom.notAhead "er".data],
    "checkpointer".data, "Checkpointer component".data),
  ("Sharepoint".data, lits "Sharepoint", "checkpointer".data, "Checkpointer component".data),
  ("wrong\\s*time".data, lits "wrong" ++ [ReAtom.wsStar] ++ lits "time",
    "runtime".data, "runtime".data),
  ("confict".data, lits "confict", "config".data, "configuration".data)]

/-- One issue reported by `analyze_file`. -/
structure IssueRec where
  pattern : Text
  suggestion : Text
  description : Text
deriving DecidableEq

/-- One per-entry result of `analyze_file`. -/
structure AnalysisRec where
  index : Int
  timestamp : Text
  text : Text
  issues : List IssueRec
deriving DecidableEq

/-- `analyze_file(filepath, custom_terms)` (source lines 1072-1115)
over the file's text.  The `custom_terms` parameter is accepted and —
exactly as in the source — never read by the matching logic. -/
def analyze_file (content : Text) (custom_terms : Option (List Text)) :
    List AnalysisRec :=
  (parse_srt content).filterMap (fun entry =>
    let entry_issues :=
      (ERROR_PATTERNS.filterMap (fun pe =>
        if reSearch pe.2.1 entry.text then
          some ⟨pe.1, pe.2.2.1, pe.2.2.2⟩
        else none)) ++
      (if reSearch (lits "underscore") (entry.text.map Char.toLower) then
        [⟨"underscore".data, "_".data,
          "Likely a variable name with underscore".data⟩]
      else [])
    if entry_issues ≠ [] then
      some ⟨entry.index, timestampText entry, entry.text, entry_issues⟩
    else none)

/-- Claim C9: the analyze operation's result is independent of the
supplied domain-terms list — for every input text and every two values
of `custom_terms` (including none), `analyze_file` returns identical
issue lists, because the parameter is bound but never used by the
matching logic. -/
theorem c9_analyze_terms_unused (content : Text) (t1 t2 : Option (List Text)) :
    analyze_file content t1 = analyze_file content t2 := rfl
